import Mathlib

/-!
Verification of the devoriales/tools metrics/labels extractor
(`cardinality_analysis_script.py` and `get_all_dashboards.py`).

The Python code is shallowly embedded: each function that carries logic is
translated into an executable Lean definition; network and filesystem effects
are passed in explicitly (a query-source filesystem is a function
`String → Option (List (List Char))`, a series backend is a function
`String → Option (List Series)`, `none` standing for a missing file or a
failed request).  Lines of text are `List Char`; Python dicts that are built
by insertion are association lists; Python sets are duplicate-free lists.
-/

/-! ### Character classes of the two regular expressions

`cardinality_analysis_script.py` lines 88-89:
  metric_pattern = re.compile(r"([a-zA-Z_:][a-zA-Z0-9_:]*)")
  label_pattern  = re.compile(r"([a-zA-Z_][a-zA-Z0-9_]*)\s*=")
-/

/-- The class `[a-zA-Z_:]`: first character of a metric-name token. -/
def isMetricStart (c : Char) : Bool :=
  ('a' ≤ c && c ≤ 'z') || ('A' ≤ c && c ≤ 'Z') || c == '_' || c == ':'

/-- The class `[a-zA-Z0-9_:]`: continuation character of a metric-name token. -/
def isMetricCont (c : Char) : Bool :=
  isMetricStart c || ('0' ≤ c && c ≤ '9')

/-- The class `[a-zA-Z_]`: first character of a label-key token. -/
def isLabelStart (c : Char) : Bool :=
  ('a' ≤ c && c ≤ 'z') || ('A' ≤ c && c ≤ 'Z') || c == '_'

/-- The class `[a-zA-Z0-9_]`: continuation character of a label-key token. -/
def isLabelCont (c : Char) : Bool :=
  isLabelStart c || ('0' ≤ c && c ≤ '9')

/-- Python `\s` on ASCII input: space, tab, newline, carriage return,
vertical tab, form feed. -/
def isSpace (c : Char) : Bool :=
  c == ' ' || c == '\t' || c == '\n' || c == '\r' || c == '\x0b' || c == '\x0c'

/-! ### The two `re.findall` scanners

`re.findall` scans the subject left to right; at each position it attempts a
match, the character classes being greedy; on success it emits the captured
group and resumes after the match, on failure it advances one character.
For these two patterns that behaviour is the following pair of scanners.
-/

/-- Scanner for `re.findall(r"([a-zA-Z_:][a-zA-Z0-9_:]*)", line)`: at a
`[a-zA-Z_:]` character, emit that character followed by the longest run of
`[a-zA-Z0-9_:]` characters and resume after the run; otherwise skip one
character. -/
def metricTokens : List Char → List (List Char)
  | [] => []
  | c :: rest =>
    if isMetricStart c then
      (c :: rest.takeWhile isMetricCont) :: metricTokens (rest.dropWhile isMetricCont)
    else
      metricTokens rest
termination_by l => l.length
decreasing_by
  · simp only [List.length_cons]
    exact Nat.lt_succ_of_le (List.dropWhile_sublist _).length_le
  · simp

/-- Scanner for `re.findall(r"([a-zA-Z_][a-zA-Z0-9_]*)\s*=", line)`: at a `[a-zA-Z_]`
character, take the longest run of `[a-zA-Z0-9_]` characters; if the run is
followed by optional whitespace and then `=`, emit the run (the captured
group excludes the whitespace and the `=`) and resume after the `=`;
otherwise, and at any other character, advance one character. -/
def labelTokens : List Char → List (List Char)
  | [] => []
  | c :: rest =>
    if isLabelStart c then
      let after := (rest.dropWhile isLabelCont).dropWhile isSpace
      if after.head? = some '=' then
        (c :: rest.takeWhile isLabelCont) :: labelTokens after.tail
      else
        labelTokens rest
    else
      labelTokens rest
termination_by l => l.length
decreasing_by
  · simp only [List.length_cons]
    simp only [List.length_tail]
    refine Nat.lt_succ_of_le (le_trans (Nat.sub_le _ 1) ?_)
    exact le_trans (List.dropWhile_sublist _).length_le (List.dropWhile_sublist _).length_le
  · simp
  · simp

unseal metricTokens

unseal labelTokens

/-! ### Facts about the character classes -/

theorem metricStart_cont {c : Char} (h : isMetricStart c = true) :
    isMetricCont c = true := by
  simp [isMetricCont, h]

theorem labelStart_cont {c : Char} (h : isLabelStart c = true) :
    isLabelCont c = true := by
  simp [isLabelCont, h]

theorem space_not_labelCont {c : Char} (h : isSpace c = true) :
    isLabelCont c = false := by
  simp only [isSpace, Bool.or_eq_true, beq_iff_eq] at h
  rcases h with ((((rfl | rfl) | rfl) | rfl) | rfl) | rfl <;> decide

theorem eq_char_not_labelCont : isLabelCont '=' = false := by decide

/-! ### List helper lemmas for the scanner characterisations -/

theorem mem_takeWhile_append_left {α : Type} {p : α → Bool} {x : α} {A B : List α}
    (h : x ∈ A.takeWhile p) : x ∈ (A ++ B).takeWhile p := by
  induction A with
  | nil => simp at h
  | cons a t ih =>
    by_cases hp : p a
    · rw [List.takeWhile_cons_of_pos hp] at h
      rw [List.cons_append, List.takeWhile_cons_of_pos hp]
      rcases List.mem_cons.mp h with h | h
      · exact List.mem_cons.mpr (Or.inl h)
      · exact List.mem_cons.mpr (Or.inr (ih h))
    · rw [List.takeWhile_cons_of_neg hp] at h
      simp at h

theorem mem_takeWhile_append_cases {α : Type} {p : α → Bool} {x : α} {A B : List α}
    (h : x ∈ (A ++ B).takeWhile p) : x ∈ A.takeWhile p ∨ x ∈ B.takeWhile p := by
  rw [List.takeWhile_append] at h
  split at h
  · rename_i hlen
    rcases List.mem_append.mp h with h | h
    · refine Or.inl ?_
      rw [(List.takeWhile_sublist p).eq_of_length hlen]
      exact h
    · exact Or.inr h
  · exact Or.inl h

theorem takeWhile_append_stop {α : Type} {p : α → Bool} {A B : List α} {x : α}
    (hx : x ∈ A) (hpx : p x = false) :
    (A ++ B).takeWhile p = A.takeWhile p ∧ (A ++ B).dropWhile p = A.dropWhile p ++ B := by
  induction A with
  | nil => simp at hx
  | cons a t ih =>
    by_cases hp : p a
    · have hxt : x ∈ t := by
        rcases List.mem_cons.mp hx with h | h
        · subst h; rw [hp] at hpx; cases hpx
        · exact h
      obtain ⟨h1, h2⟩ := ih hxt
      constructor
      · rw [List.cons_append, List.takeWhile_cons_of_pos hp,
          List.takeWhile_cons_of_pos hp, h1]
      · rw [List.cons_append, List.dropWhile_cons_of_pos hp,
          List.dropWhile_cons_of_pos hp, h2]
    · constructor
      · rw [List.cons_append, List.takeWhile_cons_of_neg hp,
          List.takeWhile_cons_of_neg hp]
      · rw [List.cons_append, List.dropWhile_cons_of_neg hp,
          List.dropWhile_cons_of_neg hp]
        simp

theorem head?_dropWhile_false {α : Type} {p : α → Bool} (l : List α) :
    ∀ x ∈ (l.dropWhile p).head?, p x = false := by
  intro x hx
  have h := List.head?_dropWhile_not p l
  cases hd : (l.dropWhile p).head? with
  | none => rw [hd] at hx; cases hx
  | some y =>
    rw [hd] at h hx
    cases hx
    exact h

theorem takeWhile_append_full {α : Type} {p : α → Bool} {A q : List α}
    (hA : ∀ x ∈ A, p x = true) (hq : ∀ x ∈ q.head?, p x = false) :
    (A ++ q).takeWhile p = A ∧ (A ++ q).dropWhile p = q := by
  refine ⟨?_, ?_⟩
  · rw [List.takeWhile_append_of_pos hA]
    cases q with
    | nil => simp
    | cons b bs =>
      have hb : p b = false := hq b (by simp)
      rw [List.takeWhile_cons_of_neg (by simp [hb]), List.append_nil]
  · rw [List.dropWhile_append_of_pos hA]
    cases q with
    | nil => simp
    | cons b bs =>
      have hb : p b = false := hq b (by simp)
      rw [List.dropWhile_cons_of_neg (by simp [hb])]

/-! ### What `re.findall` matches: declarative characterisations -/

/-- The string `m` is one that `re.findall(r"([a-zA-Z_:][a-zA-Z0-9_:]*)", s)`
produces: `m` occurs in `s`, starts with a `[a-zA-Z_:]` character, continues
with `[a-zA-Z0-9_:]` characters, is maximal on the right (the following
character, if any, is not a continuation character), and is preceded inside
its own run of continuation characters by no start character (so `m` begins
at the first possible start position of its run). -/
def MetricFindallMatch (s m : List Char) : Prop :=
  ∃ pre post c cs, s = pre ++ m ++ post ∧ m = c :: cs ∧
    isMetricStart c = true ∧
    (∀ x ∈ cs, isMetricCont x = true) ∧
    (∀ x ∈ post.head?, isMetricCont x = false) ∧
    (∀ x ∈ pre.reverse.takeWhile isMetricCont, isMetricStart x = false)

/-- The string `m` is a captured group of `re.findall(r"([a-zA-Z_][a-zA-Z0-9_]*)\s*=", s)`:
`m` occurs in `s` followed by optional whitespace and a literal `=` (both
excluded from the capture), `m` starts with `[a-zA-Z_]` and continues with
`[a-zA-Z0-9_]`, and no start character precedes `m` inside its own run of
continuation characters. -/
def LabelFindallMatch (s m : List Char) : Prop :=
  ∃ pre ws post c cs, s = pre ++ m ++ ws ++ '=' :: post ∧ m = c :: cs ∧
    isLabelStart c = true ∧
    (∀ x ∈ cs, isLabelCont x = true) ∧
    (∀ x ∈ ws, isSpace x = true) ∧
    (∀ x ∈ pre.reverse.takeWhile isLabelCont, isLabelStart x = false)

theorem metricTokens_nil : metricTokens [] = [] := by
  simp [metricTokens]

theorem metricTokens_cons_pos {c : Char} {rest : List Char} (h : isMetricStart c = true) :
    metricTokens (c :: rest) =
      (c :: rest.takeWhile isMetricCont) :: metricTokens (rest.dropWhile isMetricCont) := by
  simp [metricTokens, h]

theorem metricTokens_cons_neg {c : Char} {rest : List Char} (h : isMetricStart c = false) :
    metricTokens (c :: rest) = metricTokens rest := by
  simp [metricTokens, h]

/-- The scanner `metricTokens` produces exactly the `re.findall` matches of
the metric-name pattern. -/
theorem mem_metricTokens_iff {s m : List Char} :
    m ∈ metricTokens s ↔ MetricFindallMatch s m := by
  induction s using metricTokens.induct with
  | case1 =>
    rw [metricTokens_nil]
    simp only [List.not_mem_nil, false_iff]
    rintro ⟨pre, post, c, cs, hs, hm, -⟩
    subst hm
    exact absurd hs (by simp)
  | case2 c rest hc ih =>
    rw [metricTokens_cons_pos hc]
    constructor
    · intro hmem
      rcases List.mem_cons.mp hmem with rfl | hmem
      · exact ⟨[], rest.dropWhile isMetricCont, c, rest.takeWhile isMetricCont,
          by simp, rfl, hc, fun x hx => List.mem_takeWhile_imp hx,
          head?_dropWhile_false rest, by simp⟩
      · obtain ⟨pre', post', c', cs', hs', hm', hstart', hcont', hpost', hpre'⟩ := ih.mp hmem
        cases pre' with
        | nil =>
          exfalso
          have hhd : (rest.dropWhile isMetricCont).head? = some c' := by
            rw [hs', hm']; simp
          have := head?_dropWhile_false rest c' (by rw [hhd]; rfl)
          rw [metricStart_cont hstart'] at this
          cases this
        | cons p₀ pre₁ =>
          have hp₀ : isMetricCont p₀ = false := by
            have hhd : (rest.dropWhile isMetricCont).head? = some p₀ := by
              rw [hs']; simp
            exact head?_dropWhile_false rest p₀ (by rw [hhd]; rfl)
          refine ⟨c :: (rest.takeWhile isMetricCont ++ (p₀ :: pre₁)), post', c', cs',
            ?_, hm', hstart', hcont', hpost', ?_⟩
          · calc c :: rest
                = c :: (rest.takeWhile isMetricCont ++ rest.dropWhile isMetricCont) := by
                  rw [List.takeWhile_append_dropWhile]
              _ = c :: (rest.takeWhile isMetricCont ++ (p₀ :: pre₁ ++ m ++ post')) := by
                  rw [hs']
              _ = c :: (rest.takeWhile isMetricCont ++ (p₀ :: pre₁)) ++ m ++ post' := by
                  simp [List.append_assoc]
          · intro x hx
            have hrw : (c :: (rest.takeWhile isMetricCont ++ (p₀ :: pre₁))).reverse
                = (p₀ :: pre₁).reverse ++ ((rest.takeWhile isMetricCont).reverse ++ [c]) := by
              simp [List.append_assoc]
            rw [hrw] at hx
            have hstop := (takeWhile_append_stop (α := Char)
              (p := isMetricCont)
              (B := (rest.takeWhile isMetricCont).reverse ++ [c])
              (by simp : p₀ ∈ (p₀ :: pre₁).reverse) hp₀).1
            rw [hstop] at hx
            exact hpre' x hx
    · rintro ⟨pre, post, c', cs', hs, hm, hstart, hcont, hpost, hpre⟩
      cases pre with
      | nil =>
        subst hm
        simp only [List.nil_append, List.cons_append, List.cons.injEq] at hs
        obtain ⟨rfl, hrest⟩ := hs
        have ht : rest.takeWhile isMetricCont = cs' := by
          rw [hrest]
          exact (takeWhile_append_full hcont hpost).1
        exact List.mem_cons.mpr (Or.inl (by rw [ht]))
      | cons p pre₁ =>
        simp only [List.cons_append, List.cons.injEq] at hs
        obtain ⟨rfl, hrest⟩ := hs
        have hex : ∃ x ∈ pre₁, isMetricCont x = false := by
          by_cases hall : ∀ x ∈ pre₁, isMetricCont x = true
          · exfalso
            have hallrev : ∀ x ∈ pre₁.reverse, isMetricCont x = true := by
              intro x hx; exact hall x (List.mem_reverse.mp hx)
            have hcmem : c ∈ ((c :: pre₁).reverse.takeWhile isMetricCont) := by
              rw [List.reverse_cons, List.takeWhile_append_of_pos hallrev,
                List.takeWhile_cons_of_pos (metricStart_cont hc)]
              simp
            have := hpre c hcmem
            rw [hc] at this
            cases this
          · push_neg at hall
            obtain ⟨x, hx, hcx⟩ := hall
            exact ⟨x, hx, by simpa using hcx⟩
        obtain ⟨x₀, hx₀, hcx₀⟩ := hex
        have hstop := takeWhile_append_stop (α := Char) (p := isMetricCont)
          (B := m ++ post) hx₀ hcx₀
        refine List.mem_cons.mpr (Or.inr (ih.mpr
          ⟨pre₁.dropWhile isMetricCont, post, c', cs', ?_, hm, hstart, hcont, hpost, ?_⟩))
        · rw [hrest, List.append_assoc, hstop.2]
          simp [List.append_assoc]
        · intro x hx
          refine hpre x ?_
          rw [List.reverse_cons]
          refine mem_takeWhile_append_left ?_
          have hsplit : pre₁.reverse
              = (pre₁.dropWhile isMetricCont).reverse ++ (pre₁.takeWhile isMetricCont).reverse := by
            rw [← List.reverse_append, List.takeWhile_append_dropWhile]
          rw [hsplit]
          exact mem_takeWhile_append_left hx
  | case3 c rest hc ih =>
    have hc' : isMetricStart c = false := by simpa using hc
    rw [metricTokens_cons_neg hc']
    constructor
    · intro hmem
      obtain ⟨pre', post', c', cs', hs', hm', hstart', hcont', hpost', hpre'⟩ := ih.mp hmem
      refine ⟨c :: pre', post', c', cs', by rw [hs']; simp, hm', hstart', hcont', hpost', ?_⟩
      intro x hx
      rw [List.reverse_cons] at hx
      rcases mem_takeWhile_append_cases hx with hx | hx
      · exact hpre' x hx
      · have : x = c := by
          have := List.mem_takeWhile_imp hx
          have hxc : x ∈ [c] := (List.takeWhile_sublist _).mem hx
          simpa using hxc
        rw [this]
        exact hc'
    · rintro ⟨pre, post, c', cs', hs, hm, hstart, hcont, hpost, hpre⟩
      cases pre with
      | nil =>
        exfalso
        subst hm
        simp only [List.nil_append, List.cons_append, List.cons.injEq] at hs
        obtain ⟨rfl, -⟩ := hs
        rw [hstart] at hc'
        cases hc'
      | cons p pre₁ =>
        simp only [List.cons_append, List.cons.injEq] at hs
        obtain ⟨rfl, hrest⟩ := hs
        refine ih.mpr ⟨pre₁, post, c', cs', hrest, hm, hstart, hcont, hpost, ?_⟩
        intro x hx
        refine hpre x ?_
        rw [List.reverse_cons]
        exact mem_takeWhile_append_left hx

theorem space_not_labelStart {c : Char} (h : isSpace c = true) :
    isLabelStart c = false := by
  by_contra hc
  have h1 : isLabelCont c = true := labelStart_cont (by simpa using hc)
  rw [space_not_labelCont h] at h1
  cases h1

theorem eq_char_not_labelStart : isLabelStart '=' = false := by decide

theorem eq_char_not_space : isSpace '=' = false := by decide

theorem mem_takeWhile_append_not {α : Type} {p : α → Bool} {x e : α} {A Z : List α}
    (he : p e = false) (h : x ∈ (A ++ e :: Z).takeWhile p) : x ∈ A.takeWhile p := by
  rcases mem_takeWhile_append_cases h with h | h
  · exact h
  · rw [List.takeWhile_cons_of_neg (by simp [he])] at h
    simp at h

theorem labelTokens_nil : labelTokens [] = [] := by
  simp [labelTokens]

theorem labelTokens_cons_pos {c : Char} {rest : List Char} (h : isLabelStart c = true)
    (h2 : ((rest.dropWhile isLabelCont).dropWhile isSpace).head? = some '=') :
    labelTokens (c :: rest) = (c :: rest.takeWhile isLabelCont) ::
      labelTokens ((rest.dropWhile isLabelCont).dropWhile isSpace).tail := by
  simp [labelTokens, h, h2]

theorem labelTokens_cons_fail {c : Char} {rest : List Char} (h : isLabelStart c = true)
    (h2 : ¬ ((rest.dropWhile isLabelCont).dropWhile isSpace).head? = some '=') :
    labelTokens (c :: rest) = labelTokens rest := by
  simp [labelTokens, h, h2]

theorem labelTokens_cons_neg {c : Char} {rest : List Char} (h : isLabelStart c = false) :
    labelTokens (c :: rest) = labelTokens rest := by
  simp [labelTokens, h]

/-- If the characters before a candidate start position are all continuation
characters, the start character `c` at the head of the line is visible through
the `takeWhile`, contradicting the no-start-to-the-left condition. -/
theorem label_pre_all_cont_contra {c : Char} {pre₁ : List Char}
    (hc : isLabelStart c = true)
    (hall : ∀ x ∈ pre₁, isLabelCont x = true)
    (hpre : ∀ x ∈ (c :: pre₁).reverse.takeWhile isLabelCont, isLabelStart x = false) :
    False := by
  have hallrev : ∀ x ∈ pre₁.reverse, isLabelCont x = true := fun x hx =>
    hall x (List.mem_reverse.mp hx)
  have hcmem : c ∈ ((c :: pre₁).reverse.takeWhile isLabelCont) := by
    rw [List.reverse_cons, List.takeWhile_append_of_pos hallrev,
      List.takeWhile_cons_of_pos (labelStart_cont hc)]
    simp
  have := hpre c hcmem
  rw [hc] at this
  cases this

/-- Splitting a line of the form `A ++ ws ++ '=' :: post` with `A` all
continuation characters and `ws` all whitespace, as the scanner does. -/
theorem label_run_decomp {A ws q : List Char}
    (hA : ∀ x ∈ A, isLabelCont x = true) (hws : ∀ x ∈ ws, isSpace x = true) :
    (A ++ (ws ++ '=' :: q)).takeWhile isLabelCont = A ∧
      ((A ++ (ws ++ '=' :: q)).dropWhile isLabelCont).dropWhile isSpace
        = '=' :: q := by
  have hhd : ∀ x ∈ (ws ++ '=' :: q).head?, isLabelCont x = false := by
    intro x hx
    cases ws with
    | nil =>
      simp only [List.nil_append, List.head?_cons] at hx
      cases hx
      exact eq_char_not_labelCont
    | cons w ws' =>
      simp only [List.cons_append, List.head?_cons] at hx
      cases hx
      exact space_not_labelCont (hws _ (by simp))
  have h1 := takeWhile_append_full hA hhd
  refine ⟨h1.1, ?_⟩
  rw [h1.2]
  have h2 := takeWhile_append_full (p := isSpace) (q := '=' :: q) hws ?_
  · exact h2.2
  · intro x hx
    simp only [List.head?_cons] at hx
    cases hx
    exact eq_char_not_space

/-- The scanner `labelTokens` produces exactly the captured groups of the
label-key pattern under `re.findall`. -/
theorem mem_labelTokens_iff {s m : List Char} :
    m ∈ labelTokens s ↔ LabelFindallMatch s m := by
  induction s using labelTokens.induct with
  | case1 =>
    rw [labelTokens_nil]
    simp only [List.not_mem_nil, false_iff]
    rintro ⟨pre, ws, post, c, cs, hs, hm, -⟩
    subst hm
    exact absurd hs (by simp)
  | case2 c rest hc after h2 ih =>
    have h2 : ((rest.dropWhile isLabelCont).dropWhile isSpace).head? = some '=' := h2
    have ih : m ∈ labelTokens ((rest.dropWhile isLabelCont).dropWhile isSpace).tail ↔
        LabelFindallMatch ((rest.dropWhile isLabelCont).dropWhile isSpace).tail m := ih
    rw [labelTokens_cons_pos hc h2]
    have hA : (rest.dropWhile isLabelCont).dropWhile isSpace
        = '=' :: ((rest.dropWhile isLabelCont).dropWhile isSpace).tail := by
      cases hAc : (rest.dropWhile isLabelCont).dropWhile isSpace with
      | nil => rw [hAc] at h2; cases h2
      | cons a as =>
        rw [hAc] at h2
        simp only [List.head?_cons, Option.some.injEq] at h2
        rw [h2]
        simp
    have hrest : rest = rest.takeWhile isLabelCont ++
        ((rest.dropWhile isLabelCont).takeWhile isSpace ++
          ('=' :: ((rest.dropWhile isLabelCont).dropWhile isSpace).tail)) := by
      have e1 : (rest.dropWhile isLabelCont).takeWhile isSpace ++
          ('=' :: ((rest.dropWhile isLabelCont).dropWhile isSpace).tail)
          = rest.dropWhile isLabelCont := by
        rw [← hA, List.takeWhile_append_dropWhile]
      rw [e1, List.takeWhile_append_dropWhile]
    constructor
    · intro hmem
      rcases List.mem_cons.mp hmem with rfl | hmem
      · refine ⟨[], (rest.dropWhile isLabelCont).takeWhile isSpace,
          ((rest.dropWhile isLabelCont).dropWhile isSpace).tail, c,
          rest.takeWhile isLabelCont, ?_, rfl, hc,
          fun x hx => List.mem_takeWhile_imp hx,
          fun x hx => List.mem_takeWhile_imp hx, by simp⟩
        conv_lhs => rw [hrest]
        simp [List.append_assoc]
      · obtain ⟨pre', ws', post', c', cs', hs', hm', hstart', hcont', hws', hpre'⟩ :=
          ih.mp hmem
        refine ⟨c :: (rest.takeWhile isLabelCont ++
            ((rest.dropWhile isLabelCont).takeWhile isSpace ++ ('=' :: pre'))),
          ws', post', c', cs', ?_, hm', hstart', hcont', hws', ?_⟩
        · conv_lhs => rw [hrest, hs']
          simp [List.append_assoc]
        · intro x hx
          have hrev : (c :: (rest.takeWhile isLabelCont ++
              ((rest.dropWhile isLabelCont).takeWhile isSpace ++ ('=' :: pre')))).reverse
              = pre'.reverse ++ ('=' ::
                (((rest.dropWhile isLabelCont).takeWhile isSpace).reverse ++
                  ((rest.takeWhile isLabelCont).reverse ++ [c]))) := by
            simp [List.append_assoc]
          rw [hrev] at hx
          exact hpre' x (mem_takeWhile_append_not eq_char_not_labelCont hx)
    · rintro ⟨pre, ws, post, c', cs', hs, hm, hstart, hcont, hws, hpre⟩
      cases pre with
      | nil =>
        subst hm
        simp only [List.nil_append, List.cons_append, List.cons.injEq,
          List.append_assoc] at hs
        obtain ⟨rfl, hrest2⟩ := hs
        have h3 := label_run_decomp hcont hws (q := post)
        refine List.mem_cons.mpr (Or.inl ?_)
        rw [hrest2, h3.1]
      | cons p pre₁ =>
        simp only [List.cons_append, List.cons.injEq, List.append_assoc] at hs
        obtain ⟨rfl, hrest2⟩ := hs
        have hKrest : rest = (rest.takeWhile isLabelCont ++
            ((rest.dropWhile isLabelCont).takeWhile isSpace ++ ['='])) ++
            ((rest.dropWhile isLabelCont).dropWhile isSpace).tail := by
          conv_lhs => rw [hrest]
          simp [List.append_assoc]
        have hsplit : pre₁ ++ (m ++ (ws ++ '=' :: post)) =
            (rest.takeWhile isLabelCont ++
              ((rest.dropWhile isLabelCont).takeWhile isSpace ++ ['='])) ++
            ((rest.dropWhile isLabelCont).dropWhile isSpace).tail := by
          rw [← hrest2]
          exact hKrest
        rcases List.append_eq_append_iff.mp hsplit with ⟨a', hK, hR⟩ | ⟨q, hq, hqR⟩
        · cases a' with
          | nil =>
            rw [List.append_nil] at hK
            refine List.mem_cons.mpr (Or.inr (ih.mpr
              ⟨[], ws, post, c', cs', ?_, hm, hstart, hcont, hws, by simp⟩))
            rw [List.nil_append] at hR
            rw [← hR]
            simp [List.append_assoc]
          | cons a₀ a₁ =>
            exfalso
            rcases List.append_eq_append_iff.mp hK.symm with ⟨u, hu, hua⟩ | ⟨v, hv, hva⟩
            · -- m starts inside the identifier run: everything before it in the
              -- run is a continuation character, contradicting the
              -- no-start-to-the-left condition
              have hall : ∀ x ∈ pre₁, isLabelCont x = true := by
                intro x hx
                have hxt : x ∈ rest.takeWhile isLabelCont := by
                  rw [hu]
                  exact List.mem_append.mpr (Or.inl hx)
                exact List.mem_takeWhile_imp hxt
              exact label_pre_all_cont_contra hc hall hpre
            · -- m starts in the whitespace-or-equals region: its head is not a
              -- label start character
              have ha₀mem : a₀ ∈ (rest.dropWhile isLabelCont).takeWhile isSpace ++ ['='] := by
                rw [hva]
                simp
              have ha₀ : isLabelStart a₀ = false := by
                rcases List.mem_append.mp ha₀mem with h | h
                · exact space_not_labelStart (List.mem_takeWhile_imp h)
                · have he : a₀ = '=' := by simpa using h
                  rw [he]
                  exact eq_char_not_labelStart
              have hhead : c' = a₀ := by
                have hR' := hR
                rw [hm] at hR'
                simp only [List.cons_append, List.append_assoc] at hR'
                exact (List.cons.inj hR').1
              rw [hhead, ha₀] at hstart
              cases hstart
        · refine List.mem_cons.mpr (Or.inr (ih.mpr
            ⟨q, ws, post, c', cs', ?_, hm, hstart, hcont, hws, ?_⟩))
          · rw [hqR]
            simp [List.append_assoc]
          · intro x hx
            refine hpre x ?_
            have hrev : (c :: pre₁).reverse = q.reverse ++
                ((rest.takeWhile isLabelCont ++
                  ((rest.dropWhile isLabelCont).takeWhile isSpace ++ ['='])).reverse ++ [c]) := by
              rw [hq]
              simp [List.append_assoc]
            rw [hrev]
            exact mem_takeWhile_append_left hx
  | case3 c rest hc after h2 ih =>
    have h2 : ¬ ((rest.dropWhile isLabelCont).dropWhile isSpace).head? = some '=' := h2
    have ih : m ∈ labelTokens rest ↔ LabelFindallMatch rest m := ih
    rw [labelTokens_cons_fail hc h2]
    constructor
    · intro hmem
      obtain ⟨pre', ws', post', c', cs', hs', hm', hstart', hcont', hws', hpre'⟩ :=
        ih.mp hmem
      refine ⟨c :: pre', ws', post', c', cs', by rw [hs']; simp, hm', hstart',
        hcont', hws', ?_⟩
      have hex : ∃ x ∈ pre', isLabelCont x = false := by
        by_cases hall : ∀ x ∈ pre', isLabelCont x = true
        · exfalso
          have hcontB : ∀ x ∈ pre' ++ m, isLabelCont x = true := by
            intro x hx
            rcases List.mem_append.mp hx with h | h
            · exact hall x h
            · rw [hm'] at h
              rcases List.mem_cons.mp h with rfl | h
              · exact labelStart_cont hstart'
              · exact hcont' x h
          have hshape : rest = (pre' ++ m) ++ (ws' ++ '=' :: post') := by
            rw [hs']
            simp [List.append_assoc]
          have h3 := label_run_decomp hcontB hws' (q := post')
          rw [← hshape] at h3
          exact h2 (by rw [h3.2]; simp)
        · push_neg at hall
          obtain ⟨x, hx, hcx⟩ := hall
          exact ⟨x, hx, by simpa using hcx⟩
      obtain ⟨x₀, hx₀, hcx₀⟩ := hex
      intro x hx
      rw [List.reverse_cons] at hx
      have hstop := (takeWhile_append_stop (α := Char) (p := isLabelCont)
        (B := [c]) (List.mem_reverse.mpr hx₀) hcx₀).1
      rw [hstop] at hx
      exact hpre' x hx
    · rintro ⟨pre, ws, post, c', cs', hs, hm, hstart, hcont, hws, hpre⟩
      cases pre with
      | nil =>
        exfalso
        subst hm
        simp only [List.nil_append, List.cons_append, List.cons.injEq,
          List.append_assoc] at hs
        obtain ⟨rfl, hrest2⟩ := hs
        have h3 := label_run_decomp hcont hws (q := post)
        rw [← hrest2] at h3
        exact h2 (by rw [h3.2]; simp)
      | cons p pre₁ =>
        simp only [List.cons_append, List.cons.injEq, List.append_assoc] at hs
        obtain ⟨rfl, hrest2⟩ := hs
        refine ih.mpr ⟨pre₁, ws, post, c', cs', by rw [hrest2]; simp [List.append_assoc],
          hm, hstart, hcont, hws, ?_⟩
        intro x hx
        refine hpre x ?_
        rw [List.reverse_cons]
        exact mem_takeWhile_append_left hx
  | case4 c rest hc ih =>
    have hc' : isLabelStart c = false := by simpa using hc
    rw [labelTokens_cons_neg hc']
    constructor
    · intro hmem
      obtain ⟨pre', ws', post', c', cs', hs', hm', hstart', hcont', hws', hpre'⟩ :=
        ih.mp hmem
      refine ⟨c :: pre', ws', post', c', cs', by rw [hs']; simp, hm', hstart',
        hcont', hws', ?_⟩
      intro x hx
      rw [List.reverse_cons] at hx
      rcases mem_takeWhile_append_cases hx with hx | hx
      · exact hpre' x hx
      · have hxc : x ∈ [c] := (List.takeWhile_sublist _).mem hx
        have : x = c := by simpa using hxc
        rw [this]
        exact hc'
    · rintro ⟨pre, ws, post, c', cs', hs, hm, hstart, hcont, hws, hpre⟩
      cases pre with
      | nil =>
        exfalso
        subst hm
        simp only [List.nil_append, List.cons_append, List.cons.injEq,
          List.append_assoc] at hs
        obtain ⟨rfl, -⟩ := hs
        rw [hstart] at hc'
        cases hc'
      | cons p pre₁ =>
        simp only [List.cons_append, List.cons.injEq, List.append_assoc] at hs
        obtain ⟨rfl, hrest2⟩ := hs
        refine ih.mpr ⟨pre₁, ws, post, c', cs', by rw [hrest2]; simp [List.append_assoc],
          hm, hstart, hcont, hws, ?_⟩
        intro x hx
        refine hpre x ?_
        rw [List.reverse_cons]
        exact mem_takeWhile_append_left hx

/-! ### Query Text Extractor (extract_metrics_and_labels_from_queries)

`cardinality_analysis_script.py` lines 86-121.  The state carries the two
accumulators: `used_metrics`, a `defaultdict(set)` modelled as an
insertion-ordered association list from metric name to its duplicate-free
list of sources, and `used_labels`, a set modelled as a duplicate-free list.
The filesystem is a function `String → Option (List (List Char))`; `none`
models `not os.path.exists(path)`.
-/

structure ExtractState where
  used_metrics : List (String × List String)
  used_labels : List String
deriving DecidableEq, Repr

/-- Model of `used_metrics[match].add(source)`: find the key, inserting it at the end
if absent, and add the source to its set. -/
def addVal (um : List (String × List String)) (k v : String) :
    List (String × List String) :=
  match um with
  | [] => [(k, [v])]
  | (k', vs) :: rest =>
    if k' = k then (k', if v ∈ vs then vs else vs ++ [v]) :: rest
    else (k', vs) :: addVal rest k v

/-- Insertion of one element into the `used_labels` set. -/
def insertLabel (ul : List String) (l : String) : List String :=
  if l ∈ ul then ul else ul ++ [l]

/-- Lines 109-114: record every metric token of the line against the line's
source, then add every label token to the label set. -/
def processLine (src : String) (st : ExtractState) (line : List Char) :
    ExtractState :=
  ⟨(metricTokens line).foldl (fun um t => addVal um (String.mk t) src)
      st.used_metrics,
    (labelTokens line).foldl (fun ul t => insertLabel ul (String.mk t))
      st.used_labels⟩

/-- The Python substring test `needle in hay`. -/
def containsSub (needle : List Char) : List Char → Bool
  | [] => needle.isEmpty
  | c :: rest => needle.isPrefixOf (c :: rest) || containsSub needle rest

/-- Lines 98-104: the source tag is decided by substring tests on the path,
defaulting to the empty string. -/
def sourceFor (path : String) : String :=
  if containsSub "grafana_promql_queries.txt".toList path.toList then "grafana"
  else if containsSub "alertmanager_promql_expressions.txt".toList path.toList then
    "alertmanager"
  else if containsSub "specific_metric.txt".toList path.toList then "specific"
  else ""

/-- Lines 93-116: a missing file is skipped with a warning; an existing one
is folded line by line. -/
def processPath (fs : String → Option (List (List Char))) (st : ExtractState)
    (path : String) : ExtractState :=
  match fs path with
  | none => st
  | some content => content.foldl (processLine (sourceFor path)) st

def extractFrom (fs : String → Option (List (List Char))) (st : ExtractState)
    (paths : List String) : ExtractState :=
  paths.foldl (processPath fs) st

/-- Model of `extract_metrics_and_labels_from_queries(paths)`: the whole pass, started
from empty accumulators. -/
def extract_metrics_and_labels_from_queries
    (fs : String → Option (List (List Char))) (paths : List String) :
    ExtractState :=
  extractFrom fs ⟨[], []⟩ paths

/-- The `QUERIES_PATHS` constant of the script (lines 22-26). -/
def QUERIES_PATHS : List String :=
  ["results/grafana_promql_queries.txt", "results/grafana_specific_metric.txt",
    "results/alertmanager_promql_expressions.txt"]

/-! ### Dictionary membership notions and invariants -/

/-- The pair (metric, source) is recorded in the usage index. -/
def PairIn (um : List (String × List String)) (k s : String) : Prop :=
  ∃ vs, (k, vs) ∈ um ∧ s ∈ vs

/-- The Python membership test `metric in used_metrics`. -/
def isKey (um : List (String × List String)) (k : String) : Bool :=
  um.any (fun p => p.1 == k)

/-- The Python access `used_metrics.get(metric, [])`. -/
def getVals (um : List (String × List String)) (k : String) : List String :=
  match um with
  | [] => []
  | (k', vs) :: rest => if k' = k then vs else getVals rest k

/-- Well-formedness of the accumulators: keys unique, all sets
duplicate-free. -/
def SetInv (st : ExtractState) : Prop :=
  (st.used_metrics.map Prod.fst).Nodup ∧ (∀ p ∈ st.used_metrics, p.2.Nodup) ∧
    st.used_labels.Nodup

theorem addVal_nil {k v : String} : addVal [] k v = [(k, [v])] := by
  simp [addVal]

theorem addVal_cons_eq {k v : String} {vs₁ : List String}
    {rest : List (String × List String)} :
    addVal ((k, vs₁) :: rest) k v =
      (k, if v ∈ vs₁ then vs₁ else vs₁ ++ [v]) :: rest := by
  simp [addVal]

theorem addVal_cons_ne {k₁ k v : String} {vs₁ : List String}
    {rest : List (String × List String)} (h : k₁ ≠ k) :
    addVal ((k₁, vs₁) :: rest) k v = (k₁, vs₁) :: addVal rest k v := by
  simp [addVal, h]

theorem isKey_iff {um : List (String × List String)} {k : String} :
    isKey um k = true ↔ ∃ vs, (k, vs) ∈ um := by
  simp only [isKey, List.any_eq_true]
  constructor
  · rintro ⟨⟨k₁, vs⟩, hmem, hbeq⟩
    have : k₁ = k := by simpa using hbeq
    exact ⟨vs, by rw [← this]; exact hmem⟩
  · rintro ⟨vs, hmem⟩
    exact ⟨(k, vs), hmem, by simp⟩

theorem mem_keys_addVal {um : List (String × List String)} {k v k' : String} :
    k' ∈ (addVal um k v).map Prod.fst ↔ k' ∈ um.map Prod.fst ∨ k' = k := by
  induction um with
  | nil => simp [addVal]
  | cons p rest ih =>
    obtain ⟨k₁, vs⟩ := p
    by_cases hk : k₁ = k
    · subst hk
      rw [addVal_cons_eq]
      simp only [List.map_cons, List.mem_cons]
      tauto
    · rw [addVal_cons_ne hk]
      simp only [List.map_cons, List.mem_cons, ih]
      tauto

theorem keys_addVal {um : List (String × List String)} {k v : String} :
    (addVal um k v).map Prod.fst =
      if k ∈ um.map Prod.fst then um.map Prod.fst else um.map Prod.fst ++ [k] := by
  induction um with
  | nil => simp [addVal]
  | cons p rest ih =>
    obtain ⟨k₁, vs⟩ := p
    by_cases hk : k₁ = k
    · subst hk
      rw [addVal_cons_eq]
      simp
    · rw [addVal_cons_ne hk, List.map_cons, List.map_cons, ih]
      by_cases hmem : k ∈ rest.map Prod.fst
      · rw [if_pos hmem, if_pos (List.mem_cons.mpr (Or.inr hmem))]
      · have hcond : k ∉ k₁ :: rest.map Prod.fst := by
          intro hcon
          rcases List.mem_cons.mp hcon with hcon | hcon
          · exact hk hcon.symm
          · exact hmem hcon
        rw [if_neg hmem, if_neg hcond, List.cons_append]

theorem PairIn_addVal {um : List (String × List String)} {k v k' s : String} :
    PairIn (addVal um k v) k' s ↔ PairIn um k' s ∨ (k' = k ∧ s = v) := by
  induction um with
  | nil =>
    rw [addVal_nil]
    constructor
    · rintro ⟨vs, h1, h2⟩
      obtain ⟨hk, hv⟩ : k' = k ∧ vs = [v] := by simpa using h1
      subst hv
      right
      exact ⟨hk, by simpa using h2⟩
    · rintro (⟨vs, h1, h2⟩ | ⟨hk, hv⟩)
      · cases h1
      · exact ⟨[v], by simp [hk], by simp [hv]⟩
  | cons p rest ih =>
    obtain ⟨k₁, vs₁⟩ := p
    by_cases hk : k₁ = k
    · subst hk
      rw [addVal_cons_eq]
      constructor
      · rintro ⟨vs, h1, h2⟩
        rcases List.mem_cons.mp h1 with h1 | h1
        · obtain ⟨hk', hv⟩ : k' = k₁ ∧ vs = if v ∈ vs₁ then vs₁ else vs₁ ++ [v] := by
            simpa using h1
          subst hv
          by_cases hvin : v ∈ vs₁
          · rw [if_pos hvin] at h2
            exact Or.inl ⟨vs₁, by simp [hk'], h2⟩
          · rw [if_neg hvin] at h2
            rcases List.mem_append.mp h2 with h2 | h2
            · exact Or.inl ⟨vs₁, by simp [hk'], h2⟩
            · right
              exact ⟨hk', by simpa using h2⟩
        · exact Or.inl ⟨vs, List.mem_cons.mpr (Or.inr h1), h2⟩
      · rintro (⟨vs, h1, h2⟩ | ⟨hk', hv⟩)
        · rcases List.mem_cons.mp h1 with h1 | h1
          · obtain ⟨hk', hv⟩ : k' = k₁ ∧ vs = vs₁ := by simpa using h1
            rw [hv] at h2
            refine ⟨if v ∈ vs₁ then vs₁ else vs₁ ++ [v], by simp [hk'], ?_⟩
            by_cases hvin : v ∈ vs₁
            · rw [if_pos hvin]
              exact h2
            · rw [if_neg hvin]
              exact List.mem_append.mpr (Or.inl h2)
          · exact ⟨vs, List.mem_cons.mpr (Or.inr h1), h2⟩
        · refine ⟨if v ∈ vs₁ then vs₁ else vs₁ ++ [v], by simp [hk'], ?_⟩
          by_cases hvin : v ∈ vs₁
          · rw [if_pos hvin, hv]
            exact hvin
          · rw [if_neg hvin, hv]
            simp
    · rw [addVal_cons_ne hk]
      constructor
      · rintro ⟨vs, h1, h2⟩
        rcases List.mem_cons.mp h1 with h1 | h1
        · obtain ⟨hk', hv⟩ : k' = k₁ ∧ vs = vs₁ := by simpa using h1
          rw [hv] at h2
          exact Or.inl ⟨vs₁, by simp [hk'], h2⟩
        · rcases ih.mp ⟨vs, h1, h2⟩ with h | h
          · obtain ⟨vs', h1', h2'⟩ := h
            exact Or.inl ⟨vs', List.mem_cons.mpr (Or.inr h1'), h2'⟩
          · exact Or.inr h
      · rintro (⟨vs, h1, h2⟩ | h)
        · rcases List.mem_cons.mp h1 with h1 | h1
          · obtain ⟨hk', hv⟩ : k' = k₁ ∧ vs = vs₁ := by simpa using h1
            rw [hv] at h2
            exact ⟨vs₁, by simp [hk'], h2⟩
          · obtain ⟨vs', h1', h2'⟩ := ih.mpr (Or.inl ⟨vs, h1, h2⟩)
            exact ⟨vs', List.mem_cons.mpr (Or.inr h1'), h2'⟩
        · obtain ⟨vs', h1', h2'⟩ := ih.mpr (Or.inr h)
          exact ⟨vs', List.mem_cons.mpr (Or.inr h1'), h2'⟩

theorem nodup_keys_addVal {um : List (String × List String)} {k v : String}
    (h : (um.map Prod.fst).Nodup) : ((addVal um k v).map Prod.fst).Nodup := by
  rw [keys_addVal]
  by_cases hmem : k ∈ um.map Prod.fst
  · rw [if_pos hmem]
    exact h
  · rw [if_neg hmem]
    refine List.nodup_append.mpr ⟨h, List.nodup_singleton _, ?_⟩
    intro a ha hb
    simp only [List.mem_singleton] at hb
    subst hb
    exact hmem ha

theorem nodup_vals_addVal {um : List (String × List String)} {k v : String}
    (h : ∀ p ∈ um, p.2.Nodup) : ∀ p ∈ addVal um k v, p.2.Nodup := by
  induction um with
  | nil =>
    intro p hp
    rw [addVal_nil] at hp
    obtain rfl : p = (k, [v]) := by simpa using hp
    simp
  | cons q rest ih =>
    obtain ⟨k₁, vs₁⟩ := q
    intro p hp
    by_cases hk : k₁ = k
    · subst hk
      rw [addVal_cons_eq] at hp
      rcases List.mem_cons.mp hp with hp | hp
      · subst hp
        by_cases hvin : v ∈ vs₁
        · simpa [hvin] using h (k₁, vs₁) (by simp)
        · have hnd : vs₁.Nodup := by simpa using h (k₁, vs₁) (by simp)
          simp only [if_neg hvin]
          refine List.nodup_append.mpr ⟨hnd, List.nodup_singleton _, ?_⟩
          intro a ha hb
          simp only [List.mem_singleton] at hb
          subst hb
          exact hvin ha
      · exact h p (List.mem_cons.mpr (Or.inr hp))
    · rw [addVal_cons_ne hk] at hp
      rcases List.mem_cons.mp hp with hp | hp
      · subst hp
        exact h _ (by simp)
      · exact ih (fun q hq => h q (List.mem_cons.mpr (Or.inr hq))) p hp

theorem mem_insertLabel {ul : List String} {l l' : String} :
    l' ∈ insertLabel ul l ↔ l' ∈ ul ∨ l' = l := by
  unfold insertLabel
  by_cases h : l ∈ ul
  · rw [if_pos h]
    constructor
    · exact Or.inl
    · rintro (h' | rfl)
      · exact h'
      · exact h
  · rw [if_neg h]
    simp

theorem nodup_insertLabel {ul : List String} {l : String} (h : ul.Nodup) :
    (insertLabel ul l).Nodup := by
  unfold insertLabel
  by_cases hm : l ∈ ul
  · rw [if_pos hm]
    exact h
  · rw [if_neg hm]
    refine List.nodup_append.mpr ⟨h, List.nodup_singleton _, ?_⟩
    intro a ha hb
    simp only [List.mem_singleton] at hb
    subst hb
    exact hm ha

theorem getVals_cons {k₁ k : String} {vs₁ : List String}
    {rest : List (String × List String)} :
    getVals ((k₁, vs₁) :: rest) k = if k₁ = k then vs₁ else getVals rest k := rfl

theorem getVals_eq_nil_of_not_key {um : List (String × List String)} {k : String}
    (h : isKey um k = false) : getVals um k = [] := by
  induction um with
  | nil => rfl
  | cons p rest ih =>
    obtain ⟨k₁, vs₁⟩ := p
    simp only [isKey, List.any_cons, Bool.or_eq_false_iff] at h
    rw [getVals_cons, if_neg (by simpa using h.1)]
    exact ih h.2

theorem mem_getVals_iff {um : List (String × List String)} {k s : String}
    (hnd : (um.map Prod.fst).Nodup) : s ∈ getVals um k ↔ PairIn um k s := by
  induction um with
  | nil => simp [getVals, PairIn]
  | cons p rest ih =>
    obtain ⟨k₁, vs₁⟩ := p
    simp only [List.map_cons, List.nodup_cons] at hnd
    obtain ⟨hk₁, hnd'⟩ := hnd
    by_cases hk : k₁ = k
    · subst hk
      rw [getVals_cons, if_pos rfl]
      constructor
      · intro h
        exact ⟨vs₁, by simp, h⟩
      · rintro ⟨vs, h1, h2⟩
        rcases List.mem_cons.mp h1 with h1 | h1
        · obtain ⟨-, hv⟩ : k₁ = k₁ ∧ vs = vs₁ := by simpa using h1
          rw [hv] at h2
          exact h2
        · exact absurd (List.mem_map.mpr ⟨(k₁, vs), h1, rfl⟩) hk₁
    · rw [getVals_cons, if_neg hk, ih hnd']
      constructor
      · rintro ⟨vs, h1, h2⟩
        exact ⟨vs, List.mem_cons.mpr (Or.inr h1), h2⟩
      · rintro ⟨vs, h1, h2⟩
        rcases List.mem_cons.mp h1 with h1 | h1
        · obtain ⟨hkk, -⟩ : k = k₁ ∧ vs = vs₁ := by simpa using h1
          exact absurd hkk.symm hk
        · exact ⟨vs, h1, h2⟩

/-! ### One line of extraction: set semantics of the two folds -/

theorem PairIn_foldl_addVal {ts : List (List Char)} {src : String}
    {um : List (String × List String)} {k s : String} :
    PairIn (ts.foldl (fun acc t => addVal acc (String.mk t) src) um) k s ↔
      PairIn um k s ∨ (s = src ∧ ∃ t ∈ ts, String.mk t = k) := by
  induction ts generalizing um with
  | nil => simp
  | cons t ts ih =>
    simp only [List.foldl_cons]
    rw [ih, PairIn_addVal]
    constructor
    · rintro ((h | ⟨hk, hs⟩) | ⟨hs, t', ht', hk⟩)
      · exact Or.inl h
      · exact Or.inr ⟨hs, t, by simp, hk.symm⟩
      · exact Or.inr ⟨hs, t', by simp [ht'], hk⟩
    · rintro (h | ⟨hs, t', ht', hk⟩)
      · exact Or.inl (Or.inl h)
      · rcases List.mem_cons.mp ht' with rfl | ht'
        · exact Or.inl (Or.inr ⟨hk.symm, hs⟩)
        · exact Or.inr ⟨hs, t', ht', hk⟩

theorem mem_foldl_insertLabel {ts : List (List Char)} {ul : List String} {l : String} :
    l ∈ ts.foldl (fun acc t => insertLabel acc (String.mk t)) ul ↔
      l ∈ ul ∨ ∃ t ∈ ts, String.mk t = l := by
  induction ts generalizing ul with
  | nil => simp
  | cons t ts ih =>
    simp only [List.foldl_cons]
    rw [ih, mem_insertLabel]
    constructor
    · rintro ((h | hl) | ⟨t', ht', hl⟩)
      · exact Or.inl h
      · exact Or.inr ⟨t, by simp, hl.symm⟩
      · exact Or.inr ⟨t', by simp [ht'], hl⟩
    · rintro (h | ⟨t', ht', hl⟩)
      · exact Or.inl (Or.inl h)
      · rcases List.mem_cons.mp ht' with rfl | ht'
        · exact Or.inl (Or.inr hl.symm)
        · exact Or.inr ⟨t', ht', hl⟩

theorem nodup_keys_foldl_addVal {ts : List (List Char)} {src : String}
    {um : List (String × List String)} (h : (um.map Prod.fst).Nodup) :
    (((ts.foldl (fun acc t => addVal acc (String.mk t) src) um)).map Prod.fst).Nodup := by
  induction ts generalizing um with
  | nil => exact h
  | cons t ts ih => exact ih (nodup_keys_addVal h)

theorem nodup_vals_foldl_addVal {ts : List (List Char)} {src : String}
    {um : List (String × List String)} (h : ∀ p ∈ um, p.2.Nodup) :
    ∀ p ∈ ts.foldl (fun acc t => addVal acc (String.mk t) src) um, p.2.Nodup := by
  induction ts generalizing um with
  | nil => exact h
  | cons t ts ih => exact ih (nodup_vals_addVal h)

theorem nodup_foldl_insertLabel {ts : List (List Char)} {ul : List String}
    (h : ul.Nodup) :
    (ts.foldl (fun acc t => insertLabel acc (String.mk t)) ul).Nodup := by
  induction ts generalizing ul with
  | nil => exact h
  | cons t ts ih => exact ih (nodup_insertLabel h)

theorem SetInv_processLine {src : String} {st : ExtractState} {line : List Char}
    (h : SetInv st) : SetInv (processLine src st line) := by
  obtain ⟨h1, h2, h3⟩ := h
  exact ⟨nodup_keys_foldl_addVal h1, nodup_vals_foldl_addVal h2,
    nodup_foldl_insertLabel h3⟩

theorem SetInv_processPath {fs : String → Option (List (List Char))}
    {st : ExtractState} {path : String} (h : SetInv st) :
    SetInv (processPath fs st path) := by
  unfold processPath
  cases fs path with
  | none => exact h
  | some content =>
    induction content generalizing st with
    | nil => exact h
    | cons line rest ih => exact ih (SetInv_processLine h)

theorem SetInv_extractFrom {fs : String → Option (List (List Char))}
    {st : ExtractState} {paths : List String} (h : SetInv st) :
    SetInv (extractFrom fs st paths) := by
  induction paths generalizing st with
  | nil => exact h
  | cons path rest ih => exact ih (SetInv_processPath h)

theorem SetInv_extract {fs : String → Option (List (List Char))}
    {paths : List String} :
    SetInv (extract_metrics_and_labels_from_queries fs paths) :=
  SetInv_extractFrom ⟨List.nodup_nil, by simp, List.nodup_nil⟩

/-! ### Cardinality Analyzer (analyze_labels, lines 71-84)

A series observation is one object of the `/api/v1/series` payload: a
mapping from label key to label value, i.e. a Python dict, modelled as an
association list (key uniqueness, a property of dicts, is a hypothesis where
it matters).  `analyze_labels` folds every observation into a
`defaultdict(set)` of values per label, skipping the `__name__` key, then
returns the per-label distinct-value counts.  The `try/except` wrapper only
returns `{}` on exceptions, which the pure model cannot raise. -/

abbrev Series : Type := List (String × String)

/-- One iteration of the inner loop (lines 77-79). -/
def foldSeriesItem (m : List (String × List String)) (p : String × String) :
    List (String × List String) :=
  if p.1 = "__name__" then m else addVal m p.1 p.2

/-- One iteration of the outer loop (line 76). -/
def foldSeries (m : List (String × List String)) (s : Series) :
    List (String × List String) :=
  s.foldl foldSeriesItem m

/-- The `label_counter` defaultdict after all observations. -/
def label_counter (sd : List Series) : List (String × List String) :=
  sd.foldl foldSeries []

/-- Model of `analyze_labels(series_data)` (line 81): distinct-value count per label. -/
def analyze_labels (sd : List Series) : List (String × Nat) :=
  (label_counter sd).map (fun p => (p.1, p.2.length))

theorem getVals_addVal_self {m : List (String × List String)} {k v : String} :
    getVals (addVal m k v) k =
      if v ∈ getVals m k then getVals m k else getVals m k ++ [v] := by
  induction m with
  | nil => simp [addVal_nil, getVals]
  | cons p rest ih =>
    obtain ⟨k₁, vs₁⟩ := p
    by_cases hk : k₁ = k
    · subst hk
      rw [addVal_cons_eq, getVals_cons, if_pos rfl, getVals_cons, if_pos rfl]
    · rw [addVal_cons_ne hk, getVals_cons, if_neg hk, getVals_cons, if_neg hk, ih]

theorem getVals_addVal_ne {m : List (String × List String)} {k v l : String}
    (h : k ≠ l) : getVals (addVal m k v) l = getVals m l := by
  induction m with
  | nil => simp [addVal_nil, getVals, h]
  | cons p rest ih =>
    obtain ⟨k₁, vs₁⟩ := p
    by_cases hk : k₁ = k
    · subst hk
      rw [addVal_cons_eq, getVals_cons, if_neg h, getVals_cons, if_neg h]
    · rw [addVal_cons_ne hk, getVals_cons, getVals_cons]
      by_cases hkl : k₁ = l
      · rw [if_pos hkl, if_pos hkl]
      · rw [if_neg hkl, if_neg hkl, ih]

theorem getVals_foldSeriesItem_ne {m : List (String × List String)}
    {p : String × String} {l : String} (h : p.1 ≠ l) :
    getVals (foldSeriesItem m p) l = getVals m l := by
  unfold foldSeriesItem
  by_cases hn : p.1 = "__name__"
  · rw [if_pos hn]
  · rw [if_neg hn]
    exact getVals_addVal_ne h

theorem getVals_foldSeries_not_mem {s : Series} {m : List (String × List String)}
    {l : String} (h : l ∉ s.map Prod.fst) :
    getVals (foldSeries m s) l = getVals m l := by
  induction s generalizing m with
  | nil => rfl
  | cons p rest ih =>
    simp only [List.map_cons, List.mem_cons, not_or] at h
    unfold foldSeries
    rw [List.foldl_cons]
    have := ih (m := foldSeriesItem m p) h.2
    unfold foldSeries at this
    rw [this, getVals_foldSeriesItem_ne (fun hc => h.1 hc.symm)]

theorem getVals_foldSeries_le {s : Series} {m : List (String × List String)}
    {l : String} (h : (s.map Prod.fst).Nodup) :
    (getVals (foldSeries m s) l).length ≤ (getVals m l).length + 1 := by
  induction s generalizing m with
  | nil => exact Nat.le_succ _
  | cons p rest ih =>
    simp only [List.map_cons, List.nodup_cons] at h
    obtain ⟨hp, hnd⟩ := h
    unfold foldSeries
    rw [List.foldl_cons]
    by_cases hpl : p.1 = l
    · have hnot : l ∉ rest.map Prod.fst := by rw [← hpl]; exact hp
      have heq := getVals_foldSeries_not_mem (m := foldSeriesItem m p) hnot
      unfold foldSeries at heq
      rw [heq]
      unfold foldSeriesItem
      by_cases hn : p.1 = "__name__"
      · rw [if_pos hn]
        exact Nat.le_succ _
      · rw [if_neg hn, hpl]
        rw [getVals_addVal_self]
        by_cases hv : p.2 ∈ getVals m l
        · rw [if_pos hv]
          exact Nat.le_succ _
        · rw [if_neg hv, List.length_append]
          simp
    · have heq := getVals_foldSeriesItem_ne (m := m) (p := p) hpl
      calc (getVals (List.foldl foldSeriesItem (foldSeriesItem m p) rest) l).length
          ≤ (getVals (foldSeriesItem m p) l).length + 1 := ih hnd
        _ = (getVals m l).length + 1 := by rw [heq]

theorem getVals_foldl_foldSeries_le {sd : List Series}
    {m : List (String × List String)} {l : String}
    (h : ∀ s ∈ sd, (s.map Prod.fst).Nodup) :
    (getVals (sd.foldl foldSeries m) l).length ≤ (getVals m l).length + sd.length := by
  induction sd generalizing m with
  | nil => simp
  | cons s rest ih =>
    rw [List.foldl_cons]
    calc (getVals (rest.foldl foldSeries (foldSeries m s)) l).length
        ≤ (getVals (foldSeries m s) l).length + rest.length :=
          ih (fun s' hs => h s' (by simp [hs]))
      _ ≤ ((getVals m l).length + 1) + rest.length := by
          have := getVals_foldSeries_le (m := m) (l := l) (h s (by simp))
          omega
      _ = (getVals m l).length + (s :: rest).length := by
          simp only [List.length_cons]
          omega

theorem getVals_label_counter_le {sd : List Series} {l : String}
    (h : ∀ s ∈ sd, (s.map Prod.fst).Nodup) :
    (getVals (label_counter sd) l).length ≤ sd.length := by
  have hb := getVals_foldl_foldSeries_le (m := []) (l := l) h
  simpa [label_counter, getVals] using hb

theorem nodup_keys_foldSeriesItem {m : List (String × List String)}
    {p : String × String} (h : (m.map Prod.fst).Nodup) :
    ((foldSeriesItem m p).map Prod.fst).Nodup := by
  unfold foldSeriesItem
  by_cases hn : p.1 = "__name__"
  · rw [if_pos hn]
    exact h
  · rw [if_neg hn]
    exact nodup_keys_addVal h

theorem nodup_keys_foldSeries {s : Series} {m : List (String × List String)}
    (h : (m.map Prod.fst).Nodup) : ((foldSeries m s).map Prod.fst).Nodup := by
  induction s generalizing m with
  | nil => exact h
  | cons p rest ih => exact ih (nodup_keys_foldSeriesItem h)

theorem nodup_keys_label_counter {sd : List Series} :
    ((label_counter sd).map Prod.fst).Nodup := by
  suffices hgen : ∀ (m : List (String × List String)), (m.map Prod.fst).Nodup →
      ((sd.foldl foldSeries m).map Prod.fst).Nodup from hgen [] List.nodup_nil
  induction sd with
  | nil => exact fun m h => h
  | cons s rest ih => exact fun m h => ih _ (nodup_keys_foldSeries h)

theorem getVals_of_mem_nodup {m : List (String × List String)} {l : String}
    {vs : List String} (hnd : (m.map Prod.fst).Nodup) (h : (l, vs) ∈ m) :
    getVals m l = vs := by
  induction m with
  | nil => cases h
  | cons p rest ih =>
    obtain ⟨k₁, vs₁⟩ := p
    simp only [List.map_cons, List.nodup_cons] at hnd
    rcases List.mem_cons.mp h with h | h
    · obtain ⟨hk, hv⟩ : l = k₁ ∧ vs = vs₁ := by simpa using h
      rw [getVals_cons, if_pos hk.symm, hv]
    · have hne : k₁ ≠ l := by
        intro hc
        subst hc
        exact hnd.1 (List.mem_map.mpr ⟨(k₁, vs), h, rfl⟩)
      rw [getVals_cons, if_neg hne]
      exact ih hnd.2 h

theorem mem_keys_foldSeriesItem {m : List (String × List String)}
    {p : String × String} {l : String} :
    l ∈ (foldSeriesItem m p).map Prod.fst ↔
      l ∈ m.map Prod.fst ∨ (p.1 ≠ "__name__" ∧ l = p.1) := by
  unfold foldSeriesItem
  by_cases hn : p.1 = "__name__"
  · rw [if_pos hn]
    simp [hn]
  · rw [if_neg hn, mem_keys_addVal]
    simp [hn]

theorem mem_keys_foldSeries {s : Series} {m : List (String × List String)}
    {l : String} :
    l ∈ (foldSeries m s).map Prod.fst ↔
      l ∈ m.map Prod.fst ∨ (l ≠ "__name__" ∧ ∃ v, (l, v) ∈ s) := by
  induction s generalizing m with
  | nil => simp [foldSeries]
  | cons p rest ih =>
    obtain ⟨pk, pv⟩ := p
    unfold foldSeries
    rw [List.foldl_cons]
    have hstep : l ∈ (List.foldl foldSeriesItem (foldSeriesItem m (pk, pv)) rest).map
        Prod.fst ↔ l ∈ (foldSeriesItem m (pk, pv)).map Prod.fst ∨
        (l ≠ "__name__" ∧ ∃ v, (l, v) ∈ rest) := ih
    rw [hstep, mem_keys_foldSeriesItem]
    constructor
    · rintro ((h | ⟨hn, hl⟩) | ⟨hn, v, hv⟩)
      · exact Or.inl h
      · subst hl
        exact Or.inr ⟨hn, pv, by simp⟩
      · exact Or.inr ⟨hn, v, by simp [hv]⟩
    · rintro (h | ⟨hn, v, hv⟩)
      · exact Or.inl (Or.inl h)
      · rcases List.mem_cons.mp hv with hv | hv
        · obtain ⟨hl, -⟩ : l = pk ∧ v = pv := by simpa using hv
          exact Or.inl (Or.inr ⟨by rw [← hl]; exact hn, hl⟩)
        · exact Or.inr ⟨hn, v, hv⟩

theorem mem_keys_label_counter {sd : List Series} {l : String} :
    l ∈ (label_counter sd).map Prod.fst ↔
      l ≠ "__name__" ∧ ∃ s ∈ sd, ∃ v, (l, v) ∈ s := by
  suffices hgen : ∀ (m : List (String × List String)),
      (l ∈ (sd.foldl foldSeries m).map Prod.fst ↔
        l ∈ m.map Prod.fst ∨ (l ≠ "__name__" ∧ ∃ s ∈ sd, ∃ v, (l, v) ∈ s)) by
    have := hgen []
    simpa [label_counter] using this
  induction sd with
  | nil => simp
  | cons s rest ih =>
    intro m
    rw [List.foldl_cons, ih (foldSeries m s), mem_keys_foldSeries]
    constructor
    · rintro ((h | ⟨hn, v, hv⟩) | ⟨hn, s', hs', v, hv⟩)
      · exact Or.inl h
      · exact Or.inr ⟨hn, s, by simp, v, hv⟩
      · exact Or.inr ⟨hn, s', by simp [hs'], v, hv⟩
    · rintro (h | ⟨hn, s', hs', v, hv⟩)
      · exact Or.inl (Or.inl h)
      · rcases List.mem_cons.mp hs' with rfl | hs'
        · exact Or.inl (Or.inr ⟨hn, v, hv⟩)
        · exact Or.inr ⟨hn, s', hs', v, hv⟩

theorem exists_vals_iff_mem_keys {m : List (String × List String)} {l : String} :
    (∃ vs, (l, vs) ∈ m) ↔ l ∈ m.map Prod.fst := by
  constructor
  · rintro ⟨vs, h⟩
    exact List.mem_map.mpr ⟨(l, vs), h, rfl⟩
  · intro h
    obtain ⟨p, hp, hfst⟩ := List.mem_map.mp h
    obtain ⟨pk, pv⟩ := p
    exact ⟨pv, by rw [show l = pk from hfst.symm]; exact hp⟩

theorem keys_analyze_labels {sd : List Series} :
    (analyze_labels sd).map Prod.fst = (label_counter sd).map Prod.fst := by
  unfold analyze_labels
  rw [List.map_map]
  rfl

/-! ### Usage Reconciler and Report Builder (main, lines 124-171) -/

/-- One element of the top-N answer of fetch_top_cardinality_metrics
(lines 49-52). -/
structure TopMetric where
  metric : String
  series_count : Int
deriving DecidableEq, Repr

/-- One entry of the per-metric `label_usage` dict (lines 142-148). -/
structure LabelReport where
  cardinality : Nat
  in_use : Bool
deriving DecidableEq, Repr

/-- One entry of the summary list (lines 150-156). -/
structure MetricReport where
  metric : String
  series_count : Int
  in_use : Bool
  used_in : List String
  labels : List (String × LabelReport)
deriving DecidableEq, Repr

/-- Model of `fetch_series_for_metric` (lines 58-68): a failed request is answered by
the empty series list. -/
def fetch_series_for_metric (backend : String → Option (List Series))
    (metric_name : String) : List Series :=
  (backend metric_name).getD []

/-- The body of the per-metric loop (lines 142-156): build one MetricReport
from the usage index, the label set, the top-N entry and its label
cardinalities. -/
def reconcile (used_metrics : List (String × List String))
    (used_labels : List String) (item : TopMetric) (lc : List (String × Nat)) :
    MetricReport :=
  { metric := item.metric
    series_count := item.series_count
    in_use := isKey used_metrics item.metric
    used_in := getVals used_metrics item.metric
    labels := lc.map (fun p => (p.1, ⟨p.2, used_labels.contains p.1⟩)) }

/-- The summary list built by the loop (lines 136-156), in top-N order. -/
def buildSummary (top : List TopMetric) (backend : String → Option (List Series))
    (used_metrics : List (String × List String)) (used_labels : List String) :
    List MetricReport :=
  top.map (fun item => reconcile used_metrics used_labels item
    (analyze_labels (fetch_series_for_metric backend item.metric)))

/-- The console line printed for one report (lines 160-164). -/
def renderLine (r : MetricReport) : String :=
  r.metric ++ ": " ++ toString r.series_count ++ " series - " ++
    (if r.in_use then "✅ USED" else "❌ UNUSED") ++ " (" ++
    (if r.used_in.isEmpty then "not used" else String.intercalate ", " r.used_in)
    ++ ")"

/-- Python `sorted(summary, key=lambda x: -x["series_count"])` sorts by descending
series count; Python's sort is stable. -/
def summaryDescRel (a b : MetricReport) : Prop :=
  b.series_count ≤ a.series_count

instance : DecidableRel summaryDescRel := fun a b =>
  inferInstanceAs (Decidable (b.series_count ≤ a.series_count))

instance : IsTotal MetricReport summaryDescRel :=
  ⟨fun a b => le_total b.series_count a.series_count⟩

instance : IsTrans MetricReport summaryDescRel :=
  ⟨fun _ _ _ h1 h2 => le_trans h2 h1⟩

/-- The order in which the console digest walks the summary (line 159). -/
def consoleOrder (summary : List MetricReport) : List MetricReport :=
  summary.insertionSort summaryDescRel

/-- The console digest: one line per report, in sorted order. -/
def consoleLines (summary : List MetricReport) : List String :=
  (consoleOrder summary).map renderLine

/-! ### The persisted artifact (json.dump of the summary, lines 166-169) -/

/-- JSON values, the shape `json.dump` writes and `json.load` reads back. -/
inductive J where
  | jstr : String → J
  | jint : Int → J
  | jbool : Bool → J
  | jarr : List J → J
  | jobj : List (String × J) → J

def labelToJson (p : String × LabelReport) : String × J :=
  (p.1, J.jobj [("cardinality", J.jint p.2.cardinality),
    ("in_use", J.jbool p.2.in_use)])

def reportToJson (r : MetricReport) : J :=
  J.jobj [("metric", J.jstr r.metric), ("series_count", J.jint r.series_count),
    ("in_use", J.jbool r.in_use), ("used_in", J.jarr (r.used_in.map J.jstr)),
    ("labels", J.jobj (r.labels.map labelToJson))]

/-- The artifact written to metric_cardinality_summary.json: the summary in
construction order, one JSON object per report. -/
def summaryToJson (summary : List MetricReport) : J :=
  J.jarr (summary.map reportToJson)

def decodeStr : J → Option String
  | J.jstr s => some s
  | _ => none

def decodeLabel : String × J → Option (String × LabelReport)
  | (l, J.jobj [("cardinality", J.jint c), ("in_use", J.jbool b)]) =>
    if 0 ≤ c then some (l, ⟨c.toNat, b⟩) else none
  | _ => none

def decodeReport : J → Option MetricReport
  | J.jobj [("metric", J.jstr m), ("series_count", J.jint sc),
      ("in_use", J.jbool iu), ("used_in", J.jarr us), ("labels", J.jobj ls)] => do
    let us' ← us.mapM decodeStr
    let ls' ← ls.mapM decodeLabel
    some ⟨m, sc, iu, us', ls'⟩
  | _ => none

def decodeSummary : J → Option (List MetricReport)
  | J.jarr js => js.mapM decodeReport
  | _ => none

/-! ### Process configuration (environment variables) -/

/-- Python truthiness of an `os.getenv` result: `None` and `""` are falsy. -/
def truthy (o : Option String) : Bool := !(o.getD "" == "")

/-- The `__main__` guard of get_all_dashboards.py (lines 226-227):
`if not GRAFANA_URL or not GRAFANA_SESSION_COOKIE: raise EnvironmentError`. -/
def grafanaStartupFatal (grafana_url grafana_session_cookie : Option String) :
    Bool :=
  !truthy grafana_url || !truthy grafana_session_cookie

/-- Header construction of get_all_dashboards.py (lines 58-60): the cookie is
attached only when present. -/
def grafanaHeaders (cookie : Option String) : List (String × String) :=
  if truthy cookie then [("Cookie", "grafana_session=" ++ cookie.getD "")] else []

/-- Header construction inside get_alertmanager_metrics (lines 124-126). -/
def alertmanagerHeaders (cookie : Option String) : List (String × String) :=
  if truthy cookie then [("Cookie", "alertmanager_session=" ++ cookie.getD "")]
  else []

/-- The guard before the optional alert step (lines 218-219): only the URL is
required there; the cookie is not checked. -/
def alertStepFatal (alertmanager_url : Option String) : Bool :=
  !truthy alertmanager_url

/-- The guards at the top of cardinality_analysis_script.main (lines
125-130): missing PROMETHEUS_URL raises, an unhealthy backend ends the run
before any work. -/
def cardinalityRunAborts (prometheus_url : Option String) (healthy : Bool) :
    Bool :=
  !truthy prometheus_url || !healthy

/-! ### Round trip of the persisted artifact -/

theorem mapM_map_some {α β : Type} {f : α → β} {g : β → Option α}
    (h : ∀ a, g (f a) = some a) :
    ∀ l : List α, (l.map f).mapM g = some l := by
  intro l
  induction l with
  | nil => rfl
  | cons a l ih =>
    rw [List.map_cons, List.mapM_cons, h a, ih]
    rfl

theorem decodeStr_jstr (s : String) : decodeStr (J.jstr s) = some s := rfl

theorem decodeLabel_labelToJson (p : String × LabelReport) :
    decodeLabel (labelToJson p) = some p := by
  obtain ⟨l, lr⟩ := p
  obtain ⟨c, b⟩ := lr
  simp [labelToJson, decodeLabel]

theorem decodeReport_reportToJson (r : MetricReport) :
    decodeReport (reportToJson r) = some r := by
  obtain ⟨m, sc, iu, us, ls⟩ := r
  rw [reportToJson]
  rw [show decodeReport (J.jobj [("metric", J.jstr m),
      ("series_count", J.jint sc), ("in_use", J.jbool iu),
      ("used_in", J.jarr (us.map J.jstr)),
      ("labels", J.jobj (ls.map labelToJson))]) = (do
    let us' ← (us.map J.jstr).mapM decodeStr
    let ls' ← (ls.map labelToJson).mapM decodeLabel
    some ⟨m, sc, iu, us', ls'⟩) from rfl]
  rw [mapM_map_some decodeStr_jstr, mapM_map_some decodeLabel_labelToJson]
  rfl

theorem decodeSummary_summaryToJson (summary : List MetricReport) :
    decodeSummary (summaryToJson summary) = some summary := by
  rw [summaryToJson, show ∀ js, decodeSummary (J.jarr js) = js.mapM decodeReport
    from fun _ => rfl]
  exact mapM_map_some decodeReport_reportToJson summary

/-! ### Ordering facts about the console digest -/

theorem consoleOrder_sorted (summary : List MetricReport) :
    (consoleOrder summary).Pairwise summaryDescRel :=
  List.sorted_insertionSort summaryDescRel summary

theorem consoleOrder_perm (summary : List MetricReport) :
    (consoleOrder summary).Perm summary :=
  List.perm_insertionSort summaryDescRel summary

theorem filter_consoleOrder (summary : List MetricReport) (n : Int) :
    (consoleOrder summary).filter (fun x => x.series_count == n) =
      summary.filter (fun x => x.series_count == n) := by
  unfold consoleOrder
  induction summary with
  | nil => rfl
  | cons a l ih =>
    simp only [List.insertionSort]
    rw [List.orderedInsert_eq_take_drop, List.filter_append, List.filter_cons]
    have hsort : ((l.insertionSort summaryDescRel).takeWhile
          (fun b => decide ¬summaryDescRel a b)).filter
            (fun x => x.series_count == n) ++
        ((l.insertionSort summaryDescRel).dropWhile
          (fun b => decide ¬summaryDescRel a b)).filter
            (fun x => x.series_count == n) =
        l.filter (fun x => x.series_count == n) := by
      rw [← List.filter_append, List.takeWhile_append_dropWhile, ih]
    by_cases hpa : (a.series_count == n) = true
    · rw [if_pos hpa]
      have htw : ((l.insertionSort summaryDescRel).takeWhile
          (fun b => decide ¬summaryDescRel a b)).filter
            (fun x => x.series_count == n) = [] := by
        rw [List.filter_eq_nil_iff]
        intro x hx
        have hrel : ¬ summaryDescRel a x := by
          have := List.mem_takeWhile_imp hx
          simpa using this
        have hlt : a.series_count < x.series_count := by
          simpa [summaryDescRel, not_le] using hrel
        have han : a.series_count = n := by simpa using hpa
        simp only [beq_iff_eq]
        omega
      rw [htw] at hsort ⊢
      rw [List.nil_append, List.filter_cons, if_pos hpa]
      rw [List.nil_append] at hsort
      rw [hsort]
    · rw [if_neg hpa, List.filter_cons, if_neg hpa]
      exact hsort

/-! ### The claims -/

/-- C1: for every MetricReport produced for an analyzed top-N metric,
`in_use` is true iff the metric name is a key of the MetricUsageIndex built
from the query files; `used_in` is exactly that metric's set of sources and
is the empty list (not null) when the metric is unused; and each label's
`in_use` is true iff the label belongs to the global LabelUsageSet,
independently of the owning metric's own verdict and of the label's
cardinality. -/
theorem C1_reconciler_membership
    (fs : String → Option (List (List Char))) (paths : List String)
    (item : TopMetric) (sd : List Series) :
    (((reconcile (extract_metrics_and_labels_from_queries fs paths).used_metrics
        (extract_metrics_and_labels_from_queries fs paths).used_labels item
        (analyze_labels sd)).in_use = true) ↔
      ∃ vs, (item.metric, vs) ∈
        (extract_metrics_and_labels_from_queries fs paths).used_metrics) ∧
    (((reconcile (extract_metrics_and_labels_from_queries fs paths).used_metrics
        (extract_metrics_and_labels_from_queries fs paths).used_labels item
        (analyze_labels sd)).in_use = false) →
      (reconcile (extract_metrics_and_labels_from_queries fs paths).used_metrics
        (extract_metrics_and_labels_from_queries fs paths).used_labels item
        (analyze_labels sd)).used_in = []) ∧
    (∀ s, s ∈ (reconcile (extract_metrics_and_labels_from_queries fs paths).used_metrics
        (extract_metrics_and_labels_from_queries fs paths).used_labels item
        (analyze_labels sd)).used_in ↔
      PairIn (extract_metrics_and_labels_from_queries fs paths).used_metrics
        item.metric s) ∧
    (∀ l lr, (l, lr) ∈ (reconcile (extract_metrics_and_labels_from_queries fs paths).used_metrics
        (extract_metrics_and_labels_from_queries fs paths).used_labels item
        (analyze_labels sd)).labels →
      (lr.in_use = true ↔
        l ∈ (extract_metrics_and_labels_from_queries fs paths).used_labels)) := by
  refine ⟨isKey_iff, ?_, ?_, ?_⟩
  · intro h
    exact getVals_eq_nil_of_not_key h
  · intro s
    exact mem_getVals_iff SetInv_extract.1
  · intro l lr hmem
    obtain ⟨p, hp, heq⟩ := List.mem_map.mp hmem
    obtain ⟨hl, hlr⟩ : p.1 = l ∧
        (⟨p.2, (extract_metrics_and_labels_from_queries fs paths).used_labels.contains p.1⟩ :
          LabelReport) = lr := by
      simpa using heq
    rw [← hlr, ← hl]
    simp

/-- C1 witness: on a one-file filesystem whose single line mentions
`http_requests_total` with a `pod=` filter, the report for that metric is in
use with source `grafana`, and the `pod` label is in use. -/
theorem C1_witness :
    (reconcile (extract_metrics_and_labels_from_queries
        (fun p => if p = "results/grafana_promql_queries.txt"
          then some ["http_requests_total\x7bpod=\"x\"\x7d".toList] else none)
        QUERIES_PATHS).used_metrics
      (extract_metrics_and_labels_from_queries
        (fun p => if p = "results/grafana_promql_queries.txt"
          then some ["http_requests_total\x7bpod=\"x\"\x7d".toList] else none)
        QUERIES_PATHS).used_labels
      ⟨"http_requests_total", 500⟩
      (analyze_labels [[("pod", "a")], [("pod", "b")]])).used_in = ["grafana"] ∧
    ∀ lr, (("pod", lr) ∈ (reconcile (extract_metrics_and_labels_from_queries
        (fun p => if p = "results/grafana_promql_queries.txt"
          then some ["http_requests_total\x7bpod=\"x\"\x7d".toList] else none)
        QUERIES_PATHS).used_metrics
      (extract_metrics_and_labels_from_queries
        (fun p => if p = "results/grafana_promql_queries.txt"
          then some ["http_requests_total\x7bpod=\"x\"\x7d".toList] else none)
        QUERIES_PATHS).used_labels
      ⟨"http_requests_total", 500⟩
      (analyze_labels [[("pod", "a")], [("pod", "b")]])).labels) →
      lr.in_use = true := by
  constructor
  · decide
  · intro lr hmem
    refine ((C1_reconciler_membership
      (fun p => if p = "results/grafana_promql_queries.txt"
        then some ["http_requests_total\x7bpod=\"x\"\x7d".toList] else none)
      QUERIES_PATHS ⟨"http_requests_total", 500⟩
      [[("pod", "a")], [("pod", "b")]]).2.2.2 "pod" lr hmem).mpr ?_
    decide

/-- A top-N answer in ascending order of series count: nothing in the code
forbids it, since the backend's response is taken as-is (line 49). -/
def c2Top : List TopMetric := [⟨"low_metric", 1⟩, ⟨"high_metric", 2⟩]

/-- C2 counterexample: the artifact persisted by `json.dump` (line 169) is
the summary in construction order; with the backend returning the top list
in ascending series_count order, the persisted sequence is not sorted by
descending series_count.  Only the console digest (line 159) sorts. -/
theorem C2_counterexample :
    decodeSummary (summaryToJson (buildSummary c2Top (fun _ => none) [] [])) =
      some (buildSummary c2Top (fun _ => none) [] []) ∧
    ¬ (buildSummary c2Top (fun _ => none) [] []).Pairwise summaryDescRel := by
  constructor
  · exact decodeSummary_summaryToJson _
  · decide

/-- C2 amended: the console digest is rendered from the summary stably
sorted by descending series_count (equal counts keep their first-seen
order); the persisted metric_cardinality_summary.json artifact contains the
reports in their original first-seen order, not re-sorted. -/
theorem C2_amended (top : List TopMetric) (backend : String → Option (List Series))
    (um : List (String × List String)) (ul : List String) :
    decodeSummary (summaryToJson (buildSummary top backend um ul)) =
      some (buildSummary top backend um ul) ∧
    (consoleOrder (buildSummary top backend um ul)).Pairwise summaryDescRel ∧
    (consoleOrder (buildSummary top backend um ul)).Perm
      (buildSummary top backend um ul) ∧
    (∀ n : Int, (consoleOrder (buildSummary top backend um ul)).filter
        (fun x => x.series_count == n) =
      (buildSummary top backend um ul).filter (fun x => x.series_count == n)) :=
  ⟨decodeSummary_summaryToJson _, consoleOrder_sorted _, consoleOrder_perm _,
    filter_consoleOrder _⟩

/-- C3: for every line and source tag, the metric extractor captures exactly
the `re.findall` matches of the metric-name pattern
`[A-Za-z_:][A-Za-z0-9_:]*` — at every position of the line, not only at its
start — and records each (metric, source) pair once, with set semantics,
whatever punctuation surrounds the match. -/
theorem C3_metric_extraction (line : List Char) (src : String) (st : ExtractState) :
    (∀ m, m ∈ metricTokens line ↔ MetricFindallMatch line m) ∧
    (SetInv st → SetInv (processLine src st line)) ∧
    (∀ k s, PairIn (processLine src st line).used_metrics k s ↔
      (PairIn st.used_metrics k s ∨
        (s = src ∧ ∃ t ∈ metricTokens line, String.mk t = k))) :=
  ⟨fun _ => mem_metricTokens_iff, SetInv_processLine,
    fun _ _ => PairIn_foldl_addVal⟩

/-- C3 witness: processing the line `sum(rate(http_requests_total[5m]))`
from the empty state keeps the dictionaries well-formed, and records the
pair (http_requests_total, grafana). -/
theorem C3_metric_extraction_witness :
    SetInv (processLine "grafana" ⟨[], []⟩
      "sum(rate(http_requests_total[5m]))".toList) ∧
    PairIn (processLine "grafana" ⟨[], []⟩
        "sum(rate(http_requests_total[5m]))".toList).used_metrics
      "http_requests_total" "grafana" := by
  constructor
  · exact (C3_metric_extraction "sum(rate(http_requests_total[5m]))".toList
      "grafana" ⟨[], []⟩).2.1 ⟨List.nodup_nil, by simp, List.nodup_nil⟩
  · refine ((C3_metric_extraction "sum(rate(http_requests_total[5m]))".toList
      "grafana" ⟨[], []⟩).2.2 "http_requests_total" "grafana").mpr ?_
    refine Or.inr ⟨rfl, ?_⟩
    decide

/-- C4: for every line, a label key joins the LabelUsageSet exactly when an
identifier of the class `[A-Za-z_][A-Za-z0-9_]*` occurs followed, after
optional whitespace, by a literal `=`; the captured value is the identifier
alone, with the whitespace and the `=` discarded; the set stays
duplicate-free. -/
theorem C4_label_extraction (line : List Char) (src : String) (st : ExtractState) :
    (∀ m, m ∈ labelTokens line ↔ LabelFindallMatch line m) ∧
    (st.used_labels.Nodup → (processLine src st line).used_labels.Nodup) ∧
    (∀ l, l ∈ (processLine src st line).used_labels ↔
      (l ∈ st.used_labels ∨ ∃ t ∈ labelTokens line, String.mk t = l)) :=
  ⟨fun _ => mem_labelTokens_iff, nodup_foldl_insertLabel,
    fun _ => mem_foldl_insertLabel⟩

/-- C4 witness: on the line `http_requests_total{pod="x", ns ="y"}` the label
set gains exactly pod and ns (the `=` excluded), staying duplicate-free. -/
theorem C4_label_extraction_witness :
    (processLine "grafana" ⟨[], []⟩
      "http_requests_total\x7bpod=\"x\", ns =\"y\"\x7d".toList).used_labels.Nodup ∧
    "pod" ∈ (processLine "grafana" ⟨[], []⟩
      "http_requests_total\x7bpod=\"x\", ns =\"y\"\x7d".toList).used_labels := by
  constructor
  · exact (C4_label_extraction "http_requests_total\x7bpod=\"x\", ns =\"y\"\x7d".toList
      "grafana" ⟨[], []⟩).2.1 List.nodup_nil
  · refine ((C4_label_extraction "http_requests_total\x7bpod=\"x\", ns =\"y\"\x7d".toList
      "grafana" ⟨[], []⟩).2.2 "pod").mpr ?_
    refine Or.inr ?_
    decide

/-- C5: the Cardinality Analyzer never reports a label cardinality above the
number of observations (each observation is a dict, so its keys are unique),
and the empty observation sequence yields the empty mapping, not an error. -/
theorem C5_cardinality_bound :
    analyze_labels [] = [] ∧
    ∀ (sd : List Series), (∀ s ∈ sd, (s.map Prod.fst).Nodup) →
      ∀ l c, (l, c) ∈ analyze_labels sd → c ≤ sd.length := by
  refine ⟨rfl, ?_⟩
  intro sd h l c hmem
  obtain ⟨p, hp, heq⟩ := List.mem_map.mp hmem
  obtain ⟨pk, pvs⟩ := p
  obtain ⟨hl, hc⟩ : pk = l ∧ pvs.length = c := by simpa using heq
  subst hl
  have hg : getVals (label_counter sd) pk = pvs :=
    getVals_of_mem_nodup nodup_keys_label_counter hp
  have hb := getVals_label_counter_le (l := pk) h
  rw [hg] at hb
  omega

/-- C5 witness: two observations with two distinct pod values give the pod
label cardinality 2, within the bound. -/
theorem C5_cardinality_bound_witness :
    ("pod", 2) ∈ analyze_labels [[("pod", "a")], [("pod", "b")]] ∧
    2 ≤ ([[("pod", "a")], [("pod", "b")]] : List Series).length := by
  constructor
  · decide
  · exact C5_cardinality_bound.2 [[("pod", "a")], [("pod", "b")]] (by decide)
      "pod" 2 (by decide)

/-- C6: no per-item failure aborts the batch: a missing query file is
skipped and contributes nothing, a failed series fetch is replaced by the
empty result, every top metric still yields a report, and only the global
preconditions (configuration, connectivity) abort the run. -/
theorem C6_per_item_failures_skip :
    (∀ (fs : String → Option (List (List Char))) (st : ExtractState)
        (path : String) (rest : List String), fs path = none →
      processPath fs st path = st ∧
        extractFrom fs st (path :: rest) = extractFrom fs st rest) ∧
    (∀ (backend : String → Option (List Series)) (m : String),
      backend m = none → fetch_series_for_metric backend m = []) ∧
    (∀ (top : List TopMetric) (backend : String → Option (List Series))
        (um : List (String × List String)) (ul : List String),
      (buildSummary top backend um ul).length = top.length) ∧
    cardinalityRunAborts (some "http://prometheus:9090") true = false ∧
    cardinalityRunAborts none true = true := by
  refine ⟨?_, ?_, ?_, rfl, rfl⟩
  · intro fs st path rest h
    have hskip : processPath fs st path = st := by
      unfold processPath
      rw [h]
    refine ⟨hskip, ?_⟩
    unfold extractFrom
    rw [List.foldl_cons, hskip]
  · intro backend m h
    unfold fetch_series_for_metric
    rw [h]
    rfl
  · intro top backend um ul
    unfold buildSummary
    rw [List.length_map]

/-- C6 witness: with every file missing and every fetch failing, the first
query path is skipped and the per-metric fetch yields the empty series. -/
theorem C6_per_item_failures_skip_witness :
    processPath (fun _ => none) ⟨[], []⟩ "results/grafana_promql_queries.txt"
        = ⟨[], []⟩ ∧
    fetch_series_for_metric (fun _ => none) "up" = [] :=
  ⟨(C6_per_item_failures_skip.1 (fun _ => none) ⟨[], []⟩
      "results/grafana_promql_queries.txt" [] rfl).1,
    C6_per_item_failures_skip.2.1 (fun _ => none) "up" rfl⟩

/-- C7: serializing a summary to the JSON artifact and parsing the artifact
back yields the same sequence of MetricReports, with every field (metric,
series_count, in_use, used_in, per-label cardinality and in_use)
preserved. -/
theorem C7_roundtrip (summary : List MetricReport) :
    decodeSummary (summaryToJson summary) = some summary :=
  decodeSummary_summaryToJson summary

/-- C8: the console digest prints one line per report, of the form
`<metric>: <series_count> series - <status> (<comma-joined sources or "not
used">)` where the status marker is `✅ USED` or `❌ UNUSED` following the
usage verdict; for a metric that is no key of the usage index the line
carries `❌ UNUSED` and ends with `(not used)`. -/
theorem C8_console_line (used_metrics : List (String × List String))
    (used_labels : List String) (item : TopMetric) (lc : List (String × Nat))
    (summary : List MetricReport) :
    ((consoleLines summary).length = summary.length) ∧
    (renderLine (reconcile used_metrics used_labels item lc) =
      item.metric ++ ": " ++ toString item.series_count ++ " series - " ++
        (if isKey used_metrics item.metric then "✅ USED" else "❌ UNUSED") ++
        " (" ++
        (if (getVals used_metrics item.metric).isEmpty then "not used"
          else String.intercalate ", " (getVals used_metrics item.metric)) ++
        ")") ∧
    (isKey used_metrics item.metric = false →
      renderLine (reconcile used_metrics used_labels item lc) =
        item.metric ++ ": " ++ toString item.series_count ++
          " series - ❌ UNUSED (not used)") := by
  refine ⟨?_, rfl, ?_⟩
  · unfold consoleLines
    rw [List.length_map]
    exact (consoleOrder_perm summary).length_eq
  · intro h
    unfold renderLine reconcile
    simp only [h, Bool.false_eq_true, if_false,
      getVals_eq_nil_of_not_key h, List.isEmpty_nil, if_true]
    simp only [String.append_assoc]
    congr 1

/-- C8 witness: a metric absent from every query source renders as UNSED
with the `(not used)` trailer. -/
theorem C8_console_line_witness :
    renderLine (reconcile [] [] ⟨"debug_probe_total", 50⟩ []) =
      "debug_probe_total: 50 series - ❌ UNUSED (not used)" := by
  rw [(C8_console_line [] [] ⟨"debug_probe_total", 50⟩ [] []).2.2 rfl]
  rfl

/-- C9: the startup guard of get_all_dashboards.py raises as soon as the
optional GRAFANA_SESSION_COOKIE is absent, even though the header
construction degrades to unauthenticated requests without it; on the
AlertManager side only the URL is required and a missing cookie degrades to
cookie-less headers. -/
theorem C9_cookie_guard :
    grafanaStartupFatal (some "http://localhost:3000") none = true ∧
    grafanaHeaders none = [] ∧
    alertmanagerHeaders none = [] ∧
    alertStepFatal (some "http://localhost:9093") = false ∧
    grafanaStartupFatal none (some "cookie") = true :=
  ⟨rfl, rfl, rfl, rfl, rfl⟩

/-- C10: the labels mapping of a MetricReport contains exactly the label
keys that occur in at least one of the metric's fetched series observations
(the `__name__` key excluded); a label that sits in the global LabelUsageSet
but in none of this metric's series never appears in this metric's
report. -/
theorem C10_report_labels_domain (backend : String → Option (List Series))
    (used_metrics : List (String × List String)) (used_labels : List String)
    (item : TopMetric) :
    ∀ l, (∃ lr, (l, lr) ∈ (reconcile used_metrics used_labels item
        (analyze_labels (fetch_series_for_metric backend item.metric))).labels) ↔
      (l ≠ "__name__" ∧ ∃ s ∈ fetch_series_for_metric backend item.metric,
        ∃ v, (l, v) ∈ s) := by
  intro l
  unfold reconcile
  constructor
  · rintro ⟨lr, hmem⟩
    obtain ⟨p, hp, heq⟩ := List.mem_map.mp hmem
    have hl : p.1 = l := by
      have := congrArg Prod.fst heq
      simpa using this
    have hkey : l ∈ (analyze_labels
        (fetch_series_for_metric backend item.metric)).map Prod.fst := by
      rw [← hl]
      exact List.mem_map.mpr ⟨p, hp, rfl⟩
    rw [keys_analyze_labels] at hkey
    exact mem_keys_label_counter.mp hkey
  · intro h
    have hkey : l ∈ (analyze_labels
        (fetch_series_for_metric backend item.metric)).map Prod.fst := by
      rw [keys_analyze_labels]
      exact mem_keys_label_counter.mpr h
    obtain ⟨p, hp, hl⟩ := List.mem_map.mp hkey
    refine ⟨⟨p.2, used_labels.contains l⟩, ?_⟩
    have : (p.1, (⟨p.2, used_labels.contains p.1⟩ : LabelReport)) ∈
        (analyze_labels (fetch_series_for_metric backend item.metric)).map
          (fun q => (q.1, (⟨q.2, used_labels.contains q.1⟩ : LabelReport))) :=
      List.mem_map.mpr ⟨p, hp, rfl⟩
    rw [hl] at this
    exact this
